import Mathlib

/-!
Verification development for the Developer Activity Monitor change-detection
pipeline (`src/monitor.py`).

The pipeline is embedded shallowly:
* `compute_hash` is `hashlib.sha256(s.encode("utf-8")).hexdigest()`, embedded
  as a full SHA-256 implementation over `Nat` byte values together with a
  UTF-8 encoder; bytes and 32-bit words are `Nat`s reduced modulo `2 ^ 32`
  (written via masks) exactly where the machine arithmetic wraps.
* HTML documents are represented by their parse trees (`Node`): BeautifulSoup's
  permissive parsing of a byte stream into a tree is the one part abstracted
  away, since `extract_content` only ever observes the tree.  Attributes that
  the code inspects (tag name, `id`, the multi-valued `class`, presence of
  `data-timestamp` / `data-nonce`) are carried explicitly.
* CSS selectors are restricted to the forms the configuration uses
  (`#id`, `.class`, `tag`); `select_one` is first-match pre-order search,
  which is document order.
* The hash file store is a map from paths to a `FileState` that distinguishes
  a missing file, a readable file, and a read that fails with `IOError` /
  `OSError` (the class the code swallows).
-/

set_option maxRecDepth 10000

namespace DevMonitor

/-! ## SHA-256 over byte lists (`hashlib.sha256`) -/

/-- The 32-bit modulus; word arithmetic in SHA-256 wraps at this value. -/
def m32 : Nat := 4294967296

/-- Rotate a 32-bit word (a `Nat` below `m32`) right by `n` bits. -/
def rotr (n x : Nat) : Nat := (x >>> n) + ((x <<< (32 - n)) % 4294967296)

/-- Bitwise complement on 32 bits. -/
def bnot32 (x : Nat) : Nat := x ^^^ 4294967295

/-- SHA-256 big sigma 0. -/
def bsig0 (x : Nat) : Nat := rotr 2 x ^^^ rotr 13 x ^^^ rotr 22 x

/-- SHA-256 big sigma 1. -/
def bsig1 (x : Nat) : Nat := rotr 6 x ^^^ rotr 11 x ^^^ rotr 25 x

/-- SHA-256 small sigma 0. -/
def ssig0 (x : Nat) : Nat := rotr 7 x ^^^ rotr 18 x ^^^ (x >>> 3)

/-- SHA-256 small sigma 1. -/
def ssig1 (x : Nat) : Nat := rotr 17 x ^^^ rotr 19 x ^^^ (x >>> 10)

/-- SHA-256 choice function. -/
def chF (e f g : Nat) : Nat := (e &&& f) ^^^ (bnot32 e &&& g)

/-- SHA-256 majority function. -/
def majF (a b c : Nat) : Nat := (a &&& b) ^^^ (a &&& c) ^^^ (b &&& c)

/-- The 64 SHA-256 round constants. -/
def roundK : List Nat :=
  [1116352408, 1899447441, 3049323471, 3921009573, 961987163,
   1508970993, 2453635748, 2870763221, 3624381080, 310598401,
   607225278, 1426881987, 1925078388, 2162078206, 2614888103,
   3248222580, 3835390401, 4022224774, 264347078, 604807628,
   770255983, 1249150122, 1555081692, 1996064986, 2554220882,
   2821834349, 2952996808, 3210313671, 3336571891, 3584528711,
   113926993, 338241895, 666307205, 773529912, 1294757372,
   1396182291, 1695183700, 1986661051, 2177026350, 2456956037,
   2730485921, 2820302411, 3259730800, 3345764771, 3516065817,
   3600352804, 4094571909, 275423344, 430227734, 506948616,
   659060556, 883997877, 958139571, 1322822218, 1537002063,
   1747873779, 1955562222, 2024104815, 2227730452, 2361852424,
   2428436474, 2756734187, 3204031479, 3329325298]

/-- The eight 32-bit words of the SHA-256 working state. -/
structure SHAState where
  a : Nat
  b : Nat
  c : Nat
  d : Nat
  e : Nat
  f : Nat
  g : Nat
  h : Nat

/-- The SHA-256 initial hash value. -/
def initialState : SHAState :=
  ⟨1779033703, 3144134277, 1013904242, 2773480762,
   1359893119, 2600822924, 528734635, 1541459225⟩

/-- Extend 16 message-schedule words to 64. -/
def schedule (block : List Nat) : List Nat :=
  (List.range 48).foldl
    (fun w i =>
      w ++ [(ssig1 (w.getD (i + 14) 0) + w.getD (i + 9) 0 +
             ssig0 (w.getD (i + 1) 0) + w.getD i 0) % m32])
    block

/-- One SHA-256 round, consuming a round constant paired with a schedule word. -/
def roundStep (st : SHAState) (kw : Nat × Nat) : SHAState :=
  let t1 := (st.h + bsig1 st.e + chF st.e st.f st.g + kw.1 + kw.2) % m32
  let t2 := (bsig0 st.a + majF st.a st.b st.c) % m32
  ⟨(t1 + t2) % m32, st.a, st.b, st.c, (st.d + t1) % m32, st.e, st.f, st.g⟩

/-- Compress one 16-word block into the running state. -/
def compressBlock (st : SHAState) (block : List Nat) : SHAState :=
  let w := schedule block
  let r := (roundK.zip w).foldl roundStep st
  ⟨(st.a + r.a) % m32, (st.b + r.b) % m32, (st.c + r.c) % m32, (st.d + r.d) % m32,
   (st.e + r.e) % m32, (st.f + r.f) % m32, (st.g + r.g) % m32, (st.h + r.h) % m32⟩

/-- SHA-256 padding: `0x80`, zeros to 56 mod 64, then the 64-bit bit length. -/
def padMessage (msg : List Nat) : List Nat :=
  let len := msg.length
  let bitLen := len * 8
  msg ++ 128 :: List.replicate ((119 - len % 64) % 64) 0 ++
    [bitLen >>> 56 % 256, bitLen >>> 48 % 256, bitLen >>> 40 % 256,
     bitLen >>> 32 % 256, bitLen >>> 24 % 256, bitLen >>> 16 % 256,
     bitLen >>> 8 % 256, bitLen % 256]

/-- Group bytes into big-endian 32-bit words. -/
def toWords : List Nat → List Nat
  | y0 :: y1 :: y2 :: y3 :: rest =>
    (y0 <<< 24 + y1 <<< 16 + y2 <<< 8 + y3) :: toWords rest
  | _ => []

/-- Split a word list into 16-word blocks (the padded message fills them exactly). -/
def toBlocks : List Nat → List (List Nat)
  | w0 :: w1 :: w2 :: w3 :: w4 :: w5 :: w6 :: w7 ::
    w8 :: w9 :: w10 :: w11 :: w12 :: w13 :: w14 :: w15 :: rest =>
    [w0, w1, w2, w3, w4, w5, w6, w7, w8, w9, w10, w11, w12, w13, w14, w15] ::
      toBlocks rest
  | _ => []

/-- Big-endian bytes of a 32-bit word. -/
def wordBytes (w : Nat) : List Nat :=
  [w >>> 24 % 256, w >>> 16 % 256, w >>> 8 % 256, w % 256]

/-- The 32-byte SHA-256 digest of a byte list. -/
def sha256bytes (msg : List Nat) : List Nat :=
  let st := (toBlocks (toWords (padMessage msg))).foldl compressBlock initialState
  wordBytes st.a ++ wordBytes st.b ++ wordBytes st.c ++ wordBytes st.d ++
    wordBytes st.e ++ wordBytes st.f ++ wordBytes st.g ++ wordBytes st.h

/-- The lowercase hexadecimal alphabet used by `hexdigest`. -/
def hexChars : List Char :=
  [48, 49, 50, 51, 52, 53, 54, 55, 56, 57, 97, 98, 99, 100, 101, 102].map Char.ofNat

/-- Hex digit for a value below 16. -/
def hexDigit (n : Nat) : Char := hexChars.getD n '0'

/-- Two lowercase hex digits of a byte. -/
def hexByte (b : Nat) : List Char := [hexDigit (b / 16 % 16), hexDigit (b % 16)]

/-- UTF-8 encoding of one character, as Python's `str.encode("utf-8")` produces. -/
def utf8Char (c : Char) : List Nat :=
  let n := c.toNat
  if n < 0x80 then [n]
  else if n < 0x800 then [0xc0 + n / 64, 0x80 + n % 64]
  else if n < 0x10000 then [0xe0 + n / 4096, 0x80 + n / 64 % 64, 0x80 + n % 64]
  else [0xf0 + n / 262144, 0x80 + n / 4096 % 64, 0x80 + n / 64 % 64, 0x80 + n % 64]

/-- UTF-8 encoding of a string as a byte list. -/
def utf8Encode (s : String) : List Nat := s.data.flatMap utf8Char

/-- `compute_hash` from `src/monitor.py`: the lowercase-hex SHA-256 digest of
the UTF-8 encoding of the content. -/
def compute_hash (s : String) : String :=
  String.mk ((sha256bytes (utf8Encode s)).flatMap hexByte)

/-! ## HTML trees and `extract_content` -/

/-- A parsed HTML node.  Only the attributes `extract_content` inspects are
carried: the tag name, the `id`, the multi-valued `class` attribute (absent
iff the list is empty), and presence of `data-timestamp` / `data-nonce`. -/
inductive Node where
  | text (s : String)
  | elem (tag : String) (idAttr : Option String) (classes : List String)
      (dataTimestamp : Bool) (dataNonce : Bool) (children : List Node)

/-- A fetched document, abstracted as its parse tree (a forest at top level);
BeautifulSoup's permissive parser never fails, so parsing is total. -/
abbrev Document := List Node

/-- Python whitespace for `str.strip` and the regex class in `re.sub(r"\s+", " ")`
(the ASCII part, which is what the monitored content exercises). -/
def isSpc (c : Char) : Bool :=
  c = ' ' || c = '\t' || c = '\n' || c = '\r' || c = '\x0b' || c = '\x0c'

/-- `str.strip()` on a character list. -/
def stripL (l : List Char) : List Char :=
  ((l.dropWhile isSpc).reverse.dropWhile isSpc).reverse

/-- `str.strip()`. -/
def pyStrip (s : String) : String := String.mk (stripL s.data)

/-- `re.sub(r"\s+", " ", s)` on a character list: each maximal whitespace run
becomes one ASCII space.  The flag records whether we are inside a run whose
space is already emitted. -/
def collapseA : Bool → List Char → List Char
  | _, [] => []
  | b, c :: cs =>
    if isSpc c then
      if b then collapseA true cs else ' ' :: collapseA true cs
    else c :: collapseA false cs

/-- `re.sub(r"\s+", " ", s)`. -/
def collapseWs (s : String) : String := String.mk (collapseA false s.data)

/-- Case-insensitive substring test used by `re.search` with `re.I`:
does `lowered pat` occur inside `lowered s`? -/
def hasPrefixL : List Char → List Char → Bool
  | [], _ => true
  | _ :: _, [] => false
  | p :: ps, c :: cs => p = c && hasPrefixL ps cs

/-- Substring occurrence on character lists. -/
def hasInfixL (p : List Char) : List Char → Bool
  | [] => hasPrefixL p []
  | c :: cs => hasPrefixL p (c :: cs) || hasInfixL p cs

/-- Does one class token match `re.compile(r"ad|tracking|analytics", re.I)`
under `re.search`?  BeautifulSoup matches the pattern against each token of
the multi-valued `class` attribute and against the space-joined value; since
the alternatives contain no space, the joined test adds nothing. -/
def classTokenNoise (tok : String) : Bool :=
  let l := tok.data.map Char.toLower
  hasInfixL "ad".data l || hasInfixL "tracking".data l || hasInfixL "analytics".data l

/-- Does a `class` attribute value trigger the tracking/ads removal pass? -/
def isNoiseClass (classes : List String) : Bool := classes.any classTokenNoise

/-- Is an element removed by one of the three removal passes of
`extract_content` (dynamic tags, tracking classes, dynamic attributes)?
Composing the passes into one predicate is sound because `find_all` snapshots
its result list before `decompose` runs, so each pass removes exactly the
matching elements present in the original tree. -/
def isNoiseElem (tag : String) (classes : List String) (ts nonce : Bool) : Bool :=
  (tag = "script" || tag = "style" || tag = "noscript" || tag = "iframe") ||
    isNoiseClass classes || ts || nonce

mutual

/-- The removal passes of `extract_content`, on one node. -/
def cleanNode : Node → Option Node
  | .text s => some (.text s)
  | .elem t i cls ts nn ch =>
    if isNoiseElem t cls ts nn then none else some (.elem t i cls ts nn (cleanList ch))

/-- The removal passes of `extract_content`, on a forest. -/
def cleanList : List Node → List Node
  | [] => []
  | n :: ns =>
    match cleanNode n with
    | none => cleanList ns
    | some m => m :: cleanList ns

end

mutual

/-- The descendant text fragments of a node, in document order
(what BeautifulSoup's `get_text` iterates over). -/
def textFragments : Node → List String
  | .text s => [s]
  | .elem _ _ _ _ _ ch => fragmentsList ch

/-- The descendant text fragments of a forest, in document order. -/
def fragmentsList : List Node → List String
  | [] => []
  | n :: ns => textFragments n ++ fragmentsList ns

end

/-- `" ".join(parts)` on character lists. -/
def joinSp : List String → List Char
  | [] => []
  | [s] => s.data
  | s :: t :: rest => s.data ++ ' ' :: joinSp (t :: rest)

/-- `get_text(separator=" ", strip=True)` over a fragment list: strip each
fragment, drop the ones that become empty, join with single spaces. -/
def getTextSep (frags : List String) : String :=
  String.mk (joinSp ((frags.map pyStrip).filter (fun s => s != "")))

/-- `element.get_text(separator=" ", strip=True)`. -/
def nodeText (n : Node) : String := getTextSep (textFragments n)

/-- `soup.get_text(separator=" ", strip=True)`. -/
def docText (l : List Node) : String := getTextSep (fragmentsList l)

/-- The CSS selector forms the configuration uses (`#id`, `.class`, `tag`). -/
inductive Selector where
  | byId (s : String)
  | byClass (s : String)
  | byTag (s : String)

/-- Does an element match a selector?  (`.class` matching is exact-token,
per CSS; text nodes never match.) -/
def selMatches : Selector → Node → Bool
  | _, .text _ => false
  | .byId s, .elem _ i _ _ _ _ => i == some s
  | .byClass s, .elem _ _ cls _ _ _ => cls.contains s
  | .byTag s, .elem t _ _ _ _ _ => t == s

mutual

/-- `select_one` on a subtree: the node itself, else its first matching
descendant in document order. -/
def selectNode (sel : Selector) : Node → Option Node
  | .text _ => none
  | .elem t i cls ts nn ch =>
    if selMatches sel (.elem t i cls ts nn ch) then some (.elem t i cls ts nn ch)
    else selectList sel ch

/-- `select_one` on a forest: first match in document order. -/
def selectList (sel : Selector) : List Node → Option Node
  | [] => none
  | n :: ns =>
    match selectNode sel n with
    | some m => some m
    | none => selectList sel ns

end

/-- The error type of the monitor (`MonitorError` in the source; one
constructor per `raise` site). -/
inductive MonitorError where
  | timedOut (seconds : Nat)
  | httpError (code : Nat) (reason : String)
  | connectionFailed (url : String)
  | requestFailed (detail : String)
  | noMatch (selector : Selector)

/-- `extract_content` from `src/monitor.py`: remove noise elements, optionally
scope to the first element matched by the selector (resolved after removal),
take the separator-joined text and normalize whitespace.  (A `None` selector —
in Python also the falsy empty string — means whole-document extraction.) -/
def extract_content (doc : Document) (selector : Option Selector) :
    Except MonitorError String :=
  let cleaned := cleanList doc
  match selector with
  | some sel =>
    match selectList sel cleaned with
    | none => .error (.noMatch sel)
    | some element => .ok (pyStrip (collapseWs (nodeText element)))
  | none => .ok (pyStrip (collapseWs (docText cleaned)))

/-! ## Fetching -/

/-- The observable outcome of `requests.get` for one request: a transport
failure, or a final response (after the client's default redirect handling)
with status, reason and parsed body. -/
inductive HttpOutcome where
  | timedOut
  | connectionError
  | otherFailure (detail : String)
  | response (status : Nat) (reason : String) (body : Document)

/-- `fetch_page_content` from `src/monitor.py`: translate each
`requests` exception into a `MonitorError`; `raise_for_status` raises
exactly for status codes in `[400, 600)`. -/
def fetch_page_content (url : String) (outcome : HttpOutcome) (timeout : Nat) :
    Except MonitorError Document :=
  match outcome with
  | .timedOut => .error (.timedOut timeout)
  | .connectionError => .error (.connectionFailed url)
  | .otherFailure d => .error (.requestFailed d)
  | .response status reason body =>
    if 400 ≤ status ∧ status < 600 then .error (.httpError status reason)
    else .ok body

/-! ## The baseline store -/

/-- What the filesystem holds at one path: nothing, a readable file, or a file
whose read raises `IOError` / `OSError` (the class `load_previous_hash`
swallows). -/
inductive FileState where
  | absent
  | present (content : String)
  | readFailure

/-- The filesystem, as a map from paths to file states. -/
abbrev Store := String → FileState

/-- `load_previous_hash` from `src/monitor.py`: `None` if the file is missing
or the read raises, else the file text stripped of surrounding whitespace. -/
def load_previous_hash (fs : Store) (path : String) : Option String :=
  match fs path with
  | .absent => none
  | .readFailure => none
  | .present c => some (pyStrip c)

/-- `save_hash` from `src/monitor.py`: write the value at the path (creating
parent directories, which this flat path map renders invisible). -/
def save_hash (fs : Store) (path : String) (value : String) : Store :=
  fun p => if p = path then .present value else fs p

/-- A store with no file anywhere. -/
def emptyStore : Store := fun _ => .absent

/-! ## The change evaluator -/

/-- The configuration fields `check_for_changes` reads. -/
structure Config where
  monitor_url : String
  check_selector : Option Selector
  hash_storage_path : String

/-- `check_for_changes` from `src/monitor.py`.  The network is a map from
URLs to request outcomes; the updated store is returned alongside the
`(has_changed, message)` pair the function produces. -/
def check_for_changes (net : String → HttpOutcome) (config : Config) (fs : Store) :
    Except MonitorError ((Bool × String) × Store) := do
  let html ← fetch_page_content config.monitor_url (net config.monitor_url) 30
  let content ← extract_content html config.check_selector
  let current_hash := compute_hash content
  let previous_hash := load_previous_hash fs config.hash_storage_path
  match previous_hash with
  | none =>
    .ok ((false, "First run - baseline hash saved"),
      save_hash fs config.hash_storage_path current_hash)
  | some prev =>
    if current_hash = prev then
      .ok ((false, "No changes detected"), fs)
    else
      .ok ((true, "Change detected on monitored page"),
        save_hash fs config.hash_storage_path current_hash)

/-- The noise-invariance example document with the script tag. -/
def exDocScript : Document :=
  [.elem "html" none [] false false
    [.elem "body" none [] false false
      [.elem "script" none [] false false [.text "alert('x')"],
       .elem "p" none [] false false [.text "Content"]]]]

/-- The noise-invariance example document without the script tag. -/
def exDocPlain : Document :=
  [.elem "html" none [] false false
    [.elem "body" none [] false false
      [.elem "p" none [] false false [.text "Content"]]]]

/-- Witness network: every URL yields a 200 response with body text `"A"`. -/
def wNet : String → HttpOutcome := fun _ => .response 200 "OK" [Node.text "A"]

/-- Witness configuration. -/
def wCfg : Config := ⟨"http://example.com", none, "last_hash.txt"⟩

/-- Witness store holding the fingerprint of `"B"` at the configured key. -/
def wStoreB : Store :=
  fun p => if p = "last_hash.txt" then .present (compute_hash "B") else .absent

/-- Witness store holding the fingerprint of `"A"` at the configured key. -/
def wStoreA : Store :=
  fun p => if p = "last_hash.txt" then .present (compute_hash "A") else .absent

/-! ## Specification-side functions for the canonical-content theorems -/

/-- The whitespace-separated words of a character list, in order.  This is the
normal form through which whitespace-layout invariance of `extract_content`
is proven: the extracted content is exactly these words joined by single
spaces. -/
def wordsL : List Char → List (List Char)
  | [] => []
  | c :: cs =>
    if isSpc c then wordsL cs
    else (c :: cs.takeWhile (fun x => !isSpc x)) :: wordsL (cs.dropWhile (fun x => !isSpc x))
termination_by l => l.length
decreasing_by
  · simp
  · have h : ∀ (q : Char → Bool) (l : List Char), (l.dropWhile q).length ≤ l.length := by
      intro q l
      induction l with
      | nil => simp
      | cons a l ih =>
        rw [List.dropWhile_cons]
        split
        · exact Nat.le_trans ih (by simp)
        · simp
    have := h (fun x => !isSpc x) cs
    simp
    omega

/-- Words joined by single ASCII spaces. -/
def iwords : List (List Char) → List Char
  | [] => []
  | [w] => w
  | w :: v :: ws => w ++ ' ' :: iwords (v :: ws)

/-- Drop trailing whitespace. -/
def dropTrail (l : List Char) : List Char := (l.reverse.dropWhile isSpc).reverse

/-- A list that is empty or starts with a whitespace character. -/
def spaceHeaded (t : List Char) : Prop := ∀ c ∈ t.take 1, isSpc c = true

mutual

/-- The words of all text nodes below a node, in document order. -/
def nodeWords : Node → List (List Char)
  | .text s => wordsL s.data
  | .elem _ _ _ _ _ ch => forestWords ch

/-- The words of all text nodes below a forest, in document order. -/
def forestWords : List Node → List (List Char)
  | [] => []
  | n :: ns => nodeWords n ++ forestWords ns

end

mutual

/-- Two nodes that differ only in whitespace layout: equal element structure
and attributes, with text that carries the same words. -/
inductive WsEquiv : Node → Node → Prop where
  | text {s1 s2 : String} : wordsL s1.data = wordsL s2.data →
      WsEquiv (.text s1) (.text s2)
  | elem {t : String} {i : Option String} {cls : List String} {ts nn : Bool}
      {ch1 ch2 : List Node} : WsForestEquiv ch1 ch2 →
      WsEquiv (.elem t i cls ts nn ch1) (.elem t i cls ts nn ch2)

/-- Forest version of `WsEquiv`; purely-whitespace text nodes may be inserted
or dropped. -/
inductive WsForestEquiv : List Node → List Node → Prop where
  | nil : WsForestEquiv [] []
  | cons {n1 n2 : Node} {ns1 ns2 : List Node} : WsEquiv n1 n2 →
      WsForestEquiv ns1 ns2 → WsForestEquiv (n1 :: ns1) (n2 :: ns2)
  | skipLeft {s : String} {ns1 ns2 : List Node} : wordsL s.data = [] →
      WsForestEquiv ns1 ns2 → WsForestEquiv (.text s :: ns1) ns2
  | skipRight {s : String} {ns1 ns2 : List Node} : wordsL s.data = [] →
      WsForestEquiv ns1 ns2 → WsForestEquiv ns1 (.text s :: ns2)

end

/-- Relatedness of two `select_one` results under `WsEquiv`. -/
inductive OptNodeEquiv : Option Node → Option Node → Prop where
  | none : OptNodeEquiv none none
  | some {a b : Node} : WsEquiv a b → OptNodeEquiv (some a) (some b)

mutual

/-- The elements of a subtree in pre-order, which is document order. -/
def elemsOf : Node → List Node
  | .text _ => []
  | .elem t i cls ts nn ch => .elem t i cls ts nn ch :: elemsList ch

/-- The elements of a forest in document order. -/
def elemsList : List Node → List Node
  | [] => []
  | n :: ns => elemsOf n ++ elemsList ns

end

/-- Is a node an element that one of the removal passes matches? -/
def nodeIsNoise : Node → Bool
  | .text _ => false
  | .elem t _ cls ts nn _ => isNoiseElem t cls ts nn

/-- Is a node an element whose `class` attribute matches the tracking/ads
pattern? -/
def nodeClassNoise : Node → Bool
  | .text _ => false
  | .elem _ _ cls _ _ _ => isNoiseClass cls

/-! ## Theorems -/

/-- FIPS 180-2 test vector: digest of the empty message. -/
theorem sha256_vector_empty :
    compute_hash "" =
      "e3b0c44298fc1c149afbf4c8996fb92427ae41e4649b934ca495991b7852b855" := by
  decide

/-- FIPS 180-2 test vector: digest of `"abc"`. -/
theorem sha256_vector_abc :
    compute_hash "abc" =
      "ba7816bf8f01cfea414140de5dae2223b00361a396177a9cb410ff61f20015ad" := by
  decide

theorem extract_exDocScript : extract_content exDocScript none = .ok "Content" := rfl

theorem extract_exDocPlain : extract_content exDocPlain none = .ok "Content" := rfl

/-! ### The hexadecimal digest alphabet -/

theorem hexDigit_default (n : Nat) (h : 16 ≤ n) : hexDigit n = '0' := by
  unfold hexDigit
  rw [List.getD_eq_default]
  simp [hexChars]
  omega

theorem hexDigit_mem (n : Nat) : hexDigit n ∈ hexChars := by
  by_cases h : n < 16
  · interval_cases n <;> decide
  · rw [hexDigit_default n (by omega)]
    decide

theorem isSpc_hexDigit (n : Nat) : isSpc (hexDigit n) = false := by
  by_cases h : n < 16
  · interval_cases n <;> decide
  · rw [hexDigit_default n (by omega)]
    decide

theorem mem_flatMap_hexByte {c : Char} {bs : List Nat}
    (h : c ∈ bs.flatMap hexByte) : ∃ n, c = hexDigit n := by
  rw [List.mem_flatMap] at h
  obtain ⟨b, -, hc⟩ := h
  simp only [hexByte, List.mem_cons, List.not_mem_nil, or_false] at hc
  rcases hc with rfl | rfl
  · exact ⟨b / 16 % 16, rfl⟩
  · exact ⟨b % 16, rfl⟩

theorem length_flatMap_hexByte (bs : List Nat) :
    (bs.flatMap hexByte).length = 2 * bs.length := by
  induction bs with
  | nil => rfl
  | cons b bs ih => simp [List.flatMap_cons, hexByte, ih]; ring

theorem sha256bytes_length (msg : List Nat) : (sha256bytes msg).length = 32 := by
  simp [sha256bytes, wordBytes]

theorem stripL_of_no_space {l : List Char} (h : ∀ c ∈ l, isSpc c = false) :
    stripL l = l := by
  have h1 : l.dropWhile isSpc = l := by
    cases l with
    | nil => rfl
    | cons c cs =>
      exact List.dropWhile_cons_of_neg (by simp [h c (List.mem_cons_self c cs)])
  have h2 : l.reverse.dropWhile isSpc = l.reverse := by
    cases hr : l.reverse with
    | nil => rfl
    | cons c cs =>
      refine List.dropWhile_cons_of_neg ?_
      have : c ∈ l := by
        rw [← List.mem_reverse, hr]; exact List.mem_cons_self c cs
      simp [h c this]
  rw [stripL, h1, h2, List.reverse_reverse]

theorem pyStrip_compute_hash (s : String) :
    pyStrip (compute_hash s) = compute_hash s := by
  have : stripL (compute_hash s).data = (compute_hash s).data := by
    refine stripL_of_no_space fun c hc => ?_
    obtain ⟨n, rfl⟩ := mem_flatMap_hexByte hc
    exact isSpc_hexDigit n
  show String.mk (stripL (compute_hash s).data) = compute_hash s
  exact congrArg String.mk this

/-! ### C5: `compute_hash` is a total, deterministic 64-hex-character digest -/

/-- C5: for every string, including the empty string, `compute_hash` is total
(it is a Lean function), returns the lowercase-hex SHA-256 digest of the UTF-8
encoding (its definition), is 64 characters long, consists only of hex digits,
and repeated calls agree. -/
theorem compute_hash_contract (s : String) :
    (compute_hash s).length = 64 ∧
    ((compute_hash s).data.all fun c => decide (c ∈ hexChars)) = true ∧
    compute_hash s = compute_hash s := by
  refine ⟨?_, ?_, rfl⟩
  · show (String.mk ((sha256bytes (utf8Encode s)).flatMap hexByte)).length = 64
    show ((sha256bytes (utf8Encode s)).flatMap hexByte).length = 64
    rw [length_flatMap_hexByte, sha256bytes_length]
  · rw [List.all_eq_true]
    intro c hc
    have hc' : c ∈ (sha256bytes (utf8Encode s)).flatMap hexByte := hc
    obtain ⟨n, rfl⟩ := mem_flatMap_hexByte hc'
    simpa using hexDigit_mem n

/-! ### C6, C7: the baseline store -/

/-- C6: `save` followed by `load` at the same key returns the value whenever
the value carries no surrounding whitespace; `load` on a never-written key
returns `None`; a stored payload with surrounding whitespace loads trimmed. -/
theorem storage_roundtrip :
    (∀ (fs : Store) (key v : String), pyStrip v = v →
      load_previous_hash (save_hash fs key v) key = some v) ∧
    (∀ key, load_previous_hash emptyStore key = none) ∧
    (∀ (fs : Store) (key : String),
      load_previous_hash (save_hash fs key "  abc123  \n") key = some "abc123") := by
  refine ⟨fun fs key v hv => ?_, fun key => rfl, fun fs key => ?_⟩
  · simp [load_previous_hash, save_hash, hv]
  · simp [load_previous_hash, save_hash]
    decide

theorem storage_roundtrip_witness :
    load_previous_hash (save_hash emptyStore "last_hash.txt" "abc123") "last_hash.txt" =
      some "abc123" :=
  storage_roundtrip.1 emptyStore "last_hash.txt" "abc123" (by decide)

/-- C7: `load_previous_hash` is total (it never raises): a missing file and a
failing read both give `None`, and a present value is returned trimmed of
surrounding whitespace. -/
theorem load_previous_hash_total (fs : Store) (path : String) :
    (fs path = .absent → load_previous_hash fs path = none) ∧
    (fs path = .readFailure → load_previous_hash fs path = none) ∧
    (∀ c, fs path = .present c → load_previous_hash fs path = some (pyStrip c)) := by
  refine ⟨fun h => ?_, fun h => ?_, fun c h => ?_⟩ <;> simp [load_previous_hash, h]

theorem load_previous_hash_total_witness :
    load_previous_hash emptyStore "last_hash.txt" = none ∧
    load_previous_hash (fun _ => .readFailure) "last_hash.txt" = none ∧
    load_previous_hash (fun _ => .present "  h1  \n") "last_hash.txt" =
      some (pyStrip "  h1  \n") :=
  ⟨(load_previous_hash_total emptyStore "last_hash.txt").1 rfl,
   (load_previous_hash_total (fun _ => .readFailure) "last_hash.txt").2.1 rfl,
   (load_previous_hash_total (fun _ => .present "  h1  \n") "last_hash.txt").2.2 _ rfl⟩

/-! ### C2, C3, C4: the change evaluator -/

/-- C3: when no prior baseline is stored, `check_for_changes` saves the fresh
fingerprint and reports `(false, FirstRun)`; a subsequent load at the key
returns that fingerprint. -/
theorem check_for_changes_first_run (net : String → HttpOutcome) (cfg : Config)
    (fs : Store) (doc : Document) (content : String)
    (hfetch : fetch_page_content cfg.monitor_url (net cfg.monitor_url) 30 = .ok doc)
    (hextract : extract_content doc cfg.check_selector = .ok content)
    (hload : load_previous_hash fs cfg.hash_storage_path = none) :
    check_for_changes net cfg fs =
      .ok ((false, "First run - baseline hash saved"),
        save_hash fs cfg.hash_storage_path (compute_hash content)) ∧
    load_previous_hash (save_hash fs cfg.hash_storage_path (compute_hash content))
        cfg.hash_storage_path = some (compute_hash content) := by
  constructor
  · simp [check_for_changes, hfetch, hextract, hload, bind, Except.bind]
  · simp [load_previous_hash, save_hash, pyStrip_compute_hash]

/-- C2: when a prior baseline exists and the fresh fingerprint differs,
`check_for_changes` saves the fresh fingerprint and reports
`(true, Changed)`; a subsequent load at the key returns the new
fingerprint. -/
theorem check_for_changes_changed (net : String → HttpOutcome) (cfg : Config)
    (fs : Store) (doc : Document) (content prev : String)
    (hfetch : fetch_page_content cfg.monitor_url (net cfg.monitor_url) 30 = .ok doc)
    (hextract : extract_content doc cfg.check_selector = .ok content)
    (hload : load_previous_hash fs cfg.hash_storage_path = some prev)
    (hne : compute_hash content ≠ prev) :
    check_for_changes net cfg fs =
      .ok ((true, "Change detected on monitored page"),
        save_hash fs cfg.hash_storage_path (compute_hash content)) ∧
    load_previous_hash (save_hash fs cfg.hash_storage_path (compute_hash content))
        cfg.hash_storage_path = some (compute_hash content) := by
  constructor
  · simp [check_for_changes, hfetch, hextract, hload, hne, bind, Except.bind]
  · simp [load_previous_hash, save_hash, pyStrip_compute_hash]

/-- C4: when the fresh fingerprint equals the stored baseline,
`check_for_changes` reports `(false, Unchanged)` and returns the store
passed in, unmodified: no save happens on this path. -/
theorem check_for_changes_unchanged (net : String → HttpOutcome) (cfg : Config)
    (fs : Store) (doc : Document) (content prev : String)
    (hfetch : fetch_page_content cfg.monitor_url (net cfg.monitor_url) 30 = .ok doc)
    (hextract : extract_content doc cfg.check_selector = .ok content)
    (hload : load_previous_hash fs cfg.hash_storage_path = some prev)
    (heq : compute_hash content = prev) :
    check_for_changes net cfg fs = .ok ((false, "No changes detected"), fs) := by
  simp [check_for_changes, hfetch, hextract, hload, heq, bind, Except.bind]

/-! ### C9: non-2xx statuses -/

/-- Counterexample to C9 as stated: a final `304 Not Modified` response is not
in the 2xx range, yet `fetch_page_content` returns its body as the `Document`
instead of failing, because `raise_for_status` raises only for statuses in
`[400, 600)`. -/
theorem fetch_non2xx_counterexample :
    ¬(200 ≤ 304 ∧ 304 < 300) ∧
    fetch_page_content "http://example.com" (.response 304 "Not Modified" exDocPlain)
      30 = .ok exDocPlain :=
  ⟨by decide, rfl⟩

/-- C9 amended: `fetch_page_content` fails with an HTTP-status `MonitorError`
exactly for final statuses in `[400, 600)`; any other final status — including
3xx responses reached as the final response — yields the body as the
`Document`. -/
theorem fetch_status_ranges (url : String) (s : Nat) (r : String) (b : Document)
    (t : Nat) :
    (400 ≤ s ∧ s < 600 →
      fetch_page_content url (.response s r b) t = .error (.httpError s r)) ∧
    ((s < 400 ∨ 600 ≤ s) → fetch_page_content url (.response s r b) t = .ok b) := by
  constructor
  · intro h
    simp [fetch_page_content, h]
  · intro h
    have : ¬(400 ≤ s ∧ s < 600) := by omega
    simp [fetch_page_content, this]

theorem fetch_status_ranges_witness :
    fetch_page_content "http://example.com" (.response 404 "Not Found" []) 30 =
      .error (.httpError 404 "Not Found") ∧
    fetch_page_content "http://example.com" (.response 304 "Not Modified" []) 30 =
      .ok [] :=
  ⟨(fetch_status_ranges "http://example.com" 404 "Not Found" [] 30).1 (by decide),
   (fetch_status_ranges "http://example.com" 304 "Not Modified" [] 30).2
     (by decide)⟩

theorem check_for_changes_first_run_witness :
    check_for_changes wNet wCfg emptyStore =
      .ok ((false, "First run - baseline hash saved"),
        save_hash emptyStore "last_hash.txt" (compute_hash "A")) ∧
    load_previous_hash (save_hash emptyStore "last_hash.txt" (compute_hash "A"))
      "last_hash.txt" = some (compute_hash "A") :=
  check_for_changes_first_run wNet wCfg emptyStore [Node.text "A"] "A" rfl rfl rfl

theorem check_for_changes_changed_witness :
    check_for_changes wNet wCfg wStoreB =
      .ok ((true, "Change detected on monitored page"),
        save_hash wStoreB "last_hash.txt" (compute_hash "A")) ∧
    load_previous_hash (save_hash wStoreB "last_hash.txt" (compute_hash "A"))
      "last_hash.txt" = some (compute_hash "A") :=
  check_for_changes_changed wNet wCfg wStoreB [Node.text "A"] "A" (compute_hash "B")
    rfl rfl rfl (by decide)

theorem check_for_changes_unchanged_witness :
    check_for_changes wNet wCfg wStoreA = .ok ((false, "No changes detected"), wStoreA) :=
  check_for_changes_unchanged wNet wCfg wStoreA [Node.text "A"] "A" (compute_hash "A")
    rfl rfl rfl rfl

/-! ### Generic takeWhile / dropWhile helpers -/

theorem dropWhile_append_all {α : Type _} (p : α → Bool) {a : List α}
    (h : ∀ x ∈ a, p x = true) (b : List α) :
    (a ++ b).dropWhile p = b.dropWhile p := by
  induction a with
  | nil => rfl
  | cons x xs ih =>
    simp only [List.cons_append]
    rw [List.dropWhile_cons_of_pos (by simp [h x (by simp)])]
    exact ih fun y hy => h y (by simp [hy])

theorem takeWhile_append_all {α : Type _} (p : α → Bool) {a : List α}
    (h : ∀ x ∈ a, p x = true) (b : List α) :
    (a ++ b).takeWhile p = a ++ b.takeWhile p := by
  induction a with
  | nil => rfl
  | cons x xs ih =>
    simp only [List.cons_append]
    rw [List.takeWhile_cons_of_pos (by simp [h x (by simp)])]
    rw [ih fun y hy => h y (by simp [hy])]

theorem takeWhile_append_stop {α : Type _} (p : α → Bool) {d : α}
    (hd : p d = false) (a b : List α) :
    (a ++ d :: b).takeWhile p = a.takeWhile p := by
  induction a with
  | nil => simp [List.takeWhile_cons, hd]
  | cons x xs ih =>
    cases hpx : p x <;> simp [List.takeWhile_cons, hpx, ih]

theorem dropWhile_append_stop {α : Type _} (p : α → Bool) {d : α}
    (hd : p d = false) (a b : List α) :
    (a ++ d :: b).dropWhile p = a.dropWhile p ++ d :: b := by
  induction a with
  | nil => simp [List.dropWhile_cons, hd]
  | cons x xs ih =>
    cases hpx : p x <;> simp [List.dropWhile_cons, hpx, ih]

theorem dropWhile_append_left {α : Type _} (p : α → Bool) {a : List α} {c : α}
    {cs : List α} (h : a.dropWhile p = c :: cs) (b : List α) :
    (a ++ b).dropWhile p = c :: (cs ++ b) := by
  induction a with
  | nil => simp at h
  | cons x xs ih =>
    cases hpx : p x with
    | true =>
      rw [List.dropWhile_cons_of_pos (by simp [hpx])] at h
      simpa [List.cons_append, List.dropWhile_cons_of_pos (show (p x : Prop) by simp [hpx])]
        using ih h
    | false =>
      rw [List.dropWhile_cons_of_neg (by simp [hpx])] at h
      injection h with h1 h2
      simp only [List.cons_append]
      have hstep : List.dropWhile p (x :: (xs ++ b)) = x :: (xs ++ b) :=
        List.dropWhile_cons_of_neg (by simp [hpx])
      rw [hstep, h1, h2]

theorem dropWhile_head_false {α : Type _} (p : α → Bool) {l : List α} {c : α}
    {cs : List α} (h : l.dropWhile p = c :: cs) : p c = false := by
  induction l with
  | nil => simp at h
  | cons a l ih =>
    rw [List.dropWhile_cons] at h
    split at h
    · exact ih h
    · next hna =>
      injection h with h1 _
      subst h1
      simpa using hna

theorem length_dropWhile_le {α : Type _} (p : α → Bool) (l : List α) :
    (l.dropWhile p).length ≤ l.length := by
  induction l with
  | nil => simp
  | cons a l ih =>
    rw [List.dropWhile_cons]
    split
    · exact Nat.le_trans ih (by simp)
    · simp

/-! ### Whitespace-collapse lemmas -/

theorem collapse_true_eq (s : List Char) :
    collapseA true s = collapseA false (s.dropWhile isSpc) := by
  induction s with
  | nil => rfl
  | cons c cs ih => cases h : isSpc c <;> simp [collapseA, h, ih, List.dropWhile_cons]

theorem dropWhile_collapse_dropped (s : List Char) :
    (collapseA false (s.dropWhile isSpc)).dropWhile isSpc =
      collapseA false (s.dropWhile isSpc) := by
  cases h : s.dropWhile isSpc with
  | nil => rfl
  | cons c cs =>
    have hc : isSpc c = false := dropWhile_head_false isSpc h
    simp [collapseA, hc, List.dropWhile_cons]

theorem dropWhile_collapse (s : List Char) :
    (collapseA false s).dropWhile isSpc = collapseA false (s.dropWhile isSpc) := by
  cases s with
  | nil => rfl
  | cons c cs =>
    cases h : isSpc c with
    | true =>
      rw [show collapseA false (c :: cs) = ' ' :: collapseA true cs by
        simp [collapseA, h]]
      rw [List.dropWhile_cons_of_pos (by decide)]
      rw [collapse_true_eq]
      rw [dropWhile_collapse_dropped cs]
      rw [List.dropWhile_cons_of_pos (by simp [h])]
    | false => simp [collapseA, h, List.dropWhile_cons]

theorem collapse_nonspace_chunk {w : List Char} (hw : ∀ x ∈ w, isSpc x = false)
    (t : List Char) : collapseA false (w ++ t) = w ++ collapseA false t := by
  induction w with
  | nil => rfl
  | cons x xs ih =>
    simp only [List.cons_append]
    rw [show collapseA false (x :: (xs ++ t)) = x :: collapseA false (xs ++ t) by
      simp [collapseA, hw x (by simp)]]
    rw [ih fun y hy => hw y (by simp [hy])]

/-! ### Trailing-whitespace lemmas -/

theorem dropTrail_append_spaces {sp : List Char} (hsp : ∀ c ∈ sp, isSpc c = true)
    (x : List Char) : dropTrail (x ++ sp) = dropTrail x := by
  unfold dropTrail
  rw [List.reverse_append]
  rw [dropWhile_append_all isSpc (fun c hc => hsp c (by simpa using hc)) x.reverse]

theorem dropTrail_no_space {x : List Char} (hx : ∀ c ∈ x, isSpc c = false) :
    dropTrail x = x := by
  unfold dropTrail
  cases h : x.reverse with
  | nil =>
    rw [List.reverse_eq_nil_iff] at h
    simp [h]
  | cons a rest =>
    have ha : isSpc a = false := hx a (by rw [← List.mem_reverse, h]; simp)
    have hstep : List.dropWhile isSpc (a :: rest) = a :: rest :=
      List.dropWhile_cons_of_neg (by simp [ha])
    rw [hstep, ← h, List.reverse_reverse]

theorem dropTrail_append_left {y : List Char} (hy : dropTrail y ≠ []) (x : List Char) :
    dropTrail (x ++ y) = x ++ dropTrail y := by
  unfold dropTrail at *
  rw [List.reverse_append]
  cases hdrop : y.reverse.dropWhile isSpc with
  | nil => exact absurd (by rw [hdrop]; rfl) hy
  | cons a rest =>
    rw [dropWhile_append_left isSpc hdrop x.reverse]
    simp [hdrop, List.reverse_append, List.append_assoc]

theorem dropTrail_decomp (l : List Char) :
    l = dropTrail l ++ (l.reverse.takeWhile isSpc).reverse ∧
    ∀ c ∈ (l.reverse.takeWhile isSpc).reverse, isSpc c = true := by
  constructor
  · have h := List.takeWhile_append_dropWhile isSpc l.reverse
    calc l = l.reverse.reverse := (List.reverse_reverse l).symm
    _ = (l.reverse.takeWhile isSpc ++ l.reverse.dropWhile isSpc).reverse := by rw [h]
    _ = dropTrail l ++ (l.reverse.takeWhile isSpc).reverse := by
        rw [List.reverse_append]; rfl
  · intro c hc
    have hmem : c ∈ l.reverse.takeWhile isSpc := by simpa using hc
    exact List.mem_takeWhile_imp hmem

/-! ### Words lemmas -/

theorem wordsL_nil : wordsL [] = [] := by simp [wordsL]

theorem wordsL_cons_space {c : Char} (h : isSpc c = true) (cs : List Char) :
    wordsL (c :: cs) = wordsL cs := by
  rw [wordsL]; simp [h]

theorem wordsL_cons_word {c : Char} (h : isSpc c = false) (cs : List Char) :
    wordsL (c :: cs) =
      (c :: cs.takeWhile (fun x => !isSpc x)) ::
        wordsL (cs.dropWhile (fun x => !isSpc x)) := by
  rw [wordsL]; simp [h]

theorem spaceHeaded_dropWord (l : List Char) :
    spaceHeaded (l.dropWhile (fun x => !isSpc x)) := by
  intro c hc
  cases hdl : l.dropWhile (fun x => !isSpc x) with
  | nil => rw [hdl] at hc; simp at hc
  | cons a rest =>
    rw [hdl] at hc
    simp [List.take] at hc
    subst hc
    have := dropWhile_head_false (fun x => !isSpc x) hdl
    simpa using this

theorem spaceHeaded_takeWhile_nil {t : List Char} (ht : spaceHeaded t) :
    t.takeWhile (fun x => !isSpc x) = [] := by
  cases t with
  | nil => rfl
  | cons a rest =>
    have := ht a (by simp)
    exact List.takeWhile_cons_of_neg (by simp [this])

theorem spaceHeaded_dropWhile_self {t : List Char} (ht : spaceHeaded t) :
    t.dropWhile (fun x => !isSpc x) = t := by
  cases t with
  | nil => rfl
  | cons a rest =>
    have := ht a (by simp)
    exact List.dropWhile_cons_of_neg (by simp [this])

theorem takeWord_no_space (cs : List Char) :
    ∀ x ∈ cs.takeWhile (fun x => !isSpc x), isSpc x = false := by
  intro x hx
  have := List.mem_takeWhile_imp hx
  simpa using this

theorem wordsL_word_append {a : Char} (ha : isSpc a = false) {w' : List Char}
    (hw : ∀ x ∈ w', isSpc x = false) {t : List Char} (ht : spaceHeaded t) :
    wordsL (a :: (w' ++ t)) = (a :: w') :: wordsL t := by
  rw [wordsL_cons_word ha]
  rw [takeWhile_append_all (fun x => !isSpc x) (fun x hx => by simp [hw x hx]) t]
  rw [spaceHeaded_takeWhile_nil ht, List.append_nil]
  rw [dropWhile_append_all (fun x => !isSpc x) (fun x hx => by simp [hw x hx]) t]
  rw [spaceHeaded_dropWhile_self ht]

theorem wordsL_dropWhile (s : List Char) : wordsL (s.dropWhile isSpc) = wordsL s := by
  induction s with
  | nil => rfl
  | cons c cs ih =>
    cases h : isSpc c with
    | true => rw [List.dropWhile_cons_of_pos (by simp [h]), ih, wordsL_cons_space h]
    | false => rw [List.dropWhile_cons_of_neg (by simp [h])]

theorem wordsL_all_space {s : List Char} (h : ∀ c ∈ s, isSpc c = true) :
    wordsL s = [] := by
  induction s with
  | nil => exact wordsL_nil
  | cons c cs ih =>
    rw [wordsL_cons_space (h c (by simp))]
    exact ih fun x hx => h x (by simp [hx])

theorem wordsL_eq_nil_all_space {s : List Char} (h : wordsL s = []) :
    ∀ c ∈ s, isSpc c = true := by
  induction s with
  | nil => simp
  | cons c cs ih =>
    cases hc : isSpc c with
    | true =>
      rw [wordsL_cons_space hc] at h
      intro x hx
      rcases List.mem_cons.1 hx with rfl | hx'
      · exact hc
      · exact ih h x hx'
    | false => rw [wordsL_cons_word hc] at h; simp at h

theorem wordsL_ne_nil {s : List Char} : ∀ w ∈ wordsL s, w ≠ [] := by
  induction s using wordsL.induct with
  | case1 => simp [wordsL_nil]
  | case2 c cs h ih => rw [wordsL_cons_space h]; exact ih
  | case3 c cs h ih =>
    rw [wordsL_cons_word (by simpa using h)]
    intro w hw
    rcases List.mem_cons.1 hw with rfl | hw'
    · simp
    · exact ih w hw'

theorem wordsL_join (b a : List Char) :
    wordsL (a ++ ' ' :: b) = wordsL a ++ wordsL b := by
  induction a using wordsL.induct with
  | case1 =>
    rw [List.nil_append, wordsL_cons_space (by decide), wordsL_nil, List.nil_append]
  | case2 c cs h ih =>
    rw [List.cons_append, wordsL_cons_space h, wordsL_cons_space h, ih]
  | case3 c cs h ih =>
    have h' : isSpc c = false := by simpa using h
    rw [List.cons_append, wordsL_cons_word h', wordsL_cons_word h']
    rw [takeWhile_append_stop (fun x => !isSpc x) (by decide) cs b]
    rw [dropWhile_append_stop (fun x => !isSpc x) (by decide) cs b]
    rw [ih, List.cons_append]

theorem wordsL_append_spaces {sp : List Char} (hsp : ∀ c ∈ sp, isSpc c = true)
    (s : List Char) : wordsL (s ++ sp) = wordsL s := by
  induction s using wordsL.induct with
  | case1 => rw [List.nil_append, wordsL_all_space hsp, wordsL_nil]
  | case2 c cs h ih =>
    rw [List.cons_append, wordsL_cons_space h, wordsL_cons_space h, ih]
  | case3 c cs h ih =>
    have h' : isSpc c = false := by simpa using h
    cases sp with
    | nil => simp
    | cons d sp' =>
      have hd : isSpc d = true := hsp d (by simp)
      rw [List.cons_append, wordsL_cons_word h', wordsL_cons_word h']
      rw [takeWhile_append_stop (fun x => !isSpc x) (by simp [hd]) cs sp']
      rw [dropWhile_append_stop (fun x => !isSpc x) (by simp [hd]) cs sp']
      rw [ih]

theorem wordsL_stripL (s : List Char) : wordsL (stripL s) = wordsL s := by
  have hs : stripL s = dropTrail (s.dropWhile isSpc) := rfl
  obtain ⟨hdec, hsp⟩ := dropTrail_decomp (s.dropWhile isSpc)
  calc wordsL (stripL s) = wordsL (dropTrail (s.dropWhile isSpc)) := by rw [hs]
  _ = wordsL (dropTrail (s.dropWhile isSpc) ++
        ((s.dropWhile isSpc).reverse.takeWhile isSpc).reverse) :=
      (wordsL_append_spaces hsp _).symm
  _ = wordsL (s.dropWhile isSpc) := by rw [← hdec]
  _ = wordsL s := wordsL_dropWhile s

theorem stripL_eq_nil_words {s : List Char} :
    stripL s = [] ↔ wordsL s = [] := by
  constructor
  · intro h
    rw [← wordsL_stripL, h, wordsL_nil]
  · intro h
    have hall := wordsL_eq_nil_all_space h
    have hdw : s.dropWhile isSpc = [] := by
      rw [List.dropWhile_eq_nil_iff]
      intro x hx
      simp [hall x hx]
    show dropTrail (s.dropWhile isSpc) = []
    rw [hdw]
    rfl

theorem iwords_cons_ne {ws : List (List Char)} (h : ws ≠ []) (w : List Char) :
    iwords (w :: ws) = w ++ ' ' :: iwords ws := by
  cases ws with
  | nil => exact absurd rfl h
  | cons v ws' => rw [iwords]

theorem iwords_ne_nil {ws : List (List Char)} (hne : ws ≠ [])
    (hw : ∀ w ∈ ws, w ≠ []) : iwords ws ≠ [] := by
  cases ws with
  | nil => exact absurd rfl hne
  | cons w ws' =>
    cases ws' with
    | nil =>
      rw [iwords]
      exact hw w (by simp)
    | cons v ws'' =>
      rw [iwords]
      simp

/-! ### The canonical-content normal form -/

theorem strip_collapse_word_case {c : Char} (h' : isSpc c = false) {w' : List Char}
    (hw' : ∀ x ∈ w', isSpc x = false) {t : List Char} (ht : spaceHeaded t)
    (hIH : stripL (collapseA false t) = iwords (wordsL t)) :
    dropTrail (c :: (w' ++ collapseA false t)) = iwords ((c :: w') :: wordsL t) := by
  have hcw : ∀ x ∈ c :: w', isSpc x = false := by
    intro x hx
    rcases List.mem_cons.1 hx with rfl | hx'
    · exact h'
    · exact hw' x hx'
  cases t with
  | nil =>
    rw [wordsL_nil]
    show dropTrail (c :: (w' ++ ([] : List Char))) = iwords [c :: w']
    rw [List.append_nil, dropTrail_no_space hcw]
    rfl
  | cons d t' =>
    have hd : isSpc d = true := ht d (by simp)
    have hcd : collapseA false (d :: t') =
        ' ' :: collapseA false (t'.dropWhile isSpc) := by
      rw [show collapseA false (d :: t') = ' ' :: collapseA true t' by
        simp [collapseA, hd]]
      rw [collapse_true_eq]
    have hIH' : dropTrail (collapseA false (t'.dropWhile isSpc)) =
        iwords (wordsL (d :: t')) := by
      have h1 : dropTrail ((collapseA false (d :: t')).dropWhile isSpc) =
          iwords (wordsL (d :: t')) := hIH
      rw [dropWhile_collapse] at h1
      rw [List.dropWhile_cons_of_pos (by simp [hd])] at h1
      exact h1
    rw [hcd]
    cases hwt : wordsL (d :: t') with
    | nil =>
      have hteq : dropTrail (collapseA false (t'.dropWhile isSpc)) = [] := by
        rw [hIH', hwt]; rfl
      obtain ⟨hdec, hsp⟩ := dropTrail_decomp (collapseA false (t'.dropWhile isSpc))
      rw [hteq, List.nil_append] at hdec
      have hall : ∀ x ∈ ' ' :: collapseA false (t'.dropWhile isSpc),
          isSpc x = true := by
        intro x hx
        rcases List.mem_cons.1 hx with rfl | hx'
        · decide
        · rw [hdec] at hx'; exact hsp x hx'
      rw [show c :: (w' ++ ' ' :: collapseA false (t'.dropWhile isSpc)) =
        (c :: w') ++ (' ' :: collapseA false (t'.dropWhile isSpc)) by simp]
      rw [dropTrail_append_spaces hall, dropTrail_no_space hcw]
      rfl
    | cons wh wrest =>
      have hwtne : wordsL (d :: t') ≠ [] := by rw [hwt]; simp
      have htrne : dropTrail (collapseA false (t'.dropWhile isSpc)) ≠ [] := by
        rw [hIH']
        exact iwords_ne_nil hwtne wordsL_ne_nil
      rw [show c :: (w' ++ ' ' :: collapseA false (t'.dropWhile isSpc)) =
        (c :: w' ++ [' ']) ++ collapseA false (t'.dropWhile isSpc) by simp]
      rw [dropTrail_append_left htrne, hIH', ← hwt, iwords_cons_ne hwtne]
      simp

theorem strip_collapse_eq_iwords (s : List Char) :
    stripL (collapseA false s) = iwords (wordsL s) := by
  induction s using wordsL.induct with
  | case1 => rw [wordsL_nil]; rfl
  | case2 c cs h ih =>
    have key : stripL (collapseA false (c :: cs)) = stripL (collapseA false cs) := by
      show dropTrail ((collapseA false (c :: cs)).dropWhile isSpc) =
        dropTrail ((collapseA false cs).dropWhile isSpc)
      rw [dropWhile_collapse, dropWhile_collapse]
      rw [List.dropWhile_cons_of_pos (by simp [h])]
    rw [key, ih, wordsL_cons_space h]
  | case3 c cs h ih =>
    have h' : isSpc c = false := by simpa using h
    have hw' := takeWord_no_space cs
    have hsplit := List.takeWhile_append_dropWhile (fun x => !isSpc x) cs
    have hcollapse : collapseA false (c :: cs) =
        c :: (cs.takeWhile (fun x => !isSpc x) ++
          collapseA false (cs.dropWhile (fun x => !isSpc x))) := by
      rw [show collapseA false (c :: cs) = c :: collapseA false cs by
        simp [collapseA, h']]
      conv_lhs => rw [← hsplit]
      rw [collapse_nonspace_chunk hw']
    have hstrip : stripL (collapseA false (c :: cs)) =
        dropTrail (c :: (cs.takeWhile (fun x => !isSpc x) ++
          collapseA false (cs.dropWhile (fun x => !isSpc x)))) := by
      rw [hcollapse]
      show dropTrail (List.dropWhile isSpc _) = _
      rw [List.dropWhile_cons_of_neg (by simp [h'])]
    rw [wordsL_cons_word h', hstrip]
    exact strip_collapse_word_case h' hw' (spaceHeaded_dropWord cs) ih

/-! ### Words of joined, filtered fragments -/

theorem wordsL_joinSp : ∀ parts : List String,
    wordsL (joinSp parts) = parts.flatMap fun s => wordsL s.data
  | [] => by rw [joinSp, wordsL_nil]; rfl
  | [x] => by rw [joinSp]; simp
  | x :: y :: rest => by
    rw [joinSp, wordsL_join, wordsL_joinSp (y :: rest)]
    simp

theorem flatMap_words_filter : ∀ frags : List String,
    (((frags.map pyStrip).filter fun s => s != "").flatMap fun s => wordsL s.data) =
      frags.flatMap fun s => wordsL s.data
  | [] => rfl
  | f :: rest => by
    simp only [List.map_cons, List.filter_cons]
    cases hf : pyStrip f != "" with
    | true =>
      simp only [if_true]
      rw [List.flatMap_cons, List.flatMap_cons, flatMap_words_filter rest]
      congr 1
      show wordsL (stripL f.data) = wordsL f.data
      exact wordsL_stripL f.data
    | false =>
      have hf' : pyStrip f = "" := by simpa using hf
      have hdata : stripL f.data = [] := congrArg String.data hf'
      have hw : wordsL f.data = [] := by
        rw [← wordsL_stripL, hdata, wordsL_nil]
      simp only [Bool.false_eq_true, if_false]
      rw [flatMap_words_filter rest, List.flatMap_cons, hw, List.nil_append]

/-- The canonical content of a fragment list: `get_text` with a space
separator followed by whitespace collapse and strip equals the fragment
words joined by single spaces. -/
theorem canonical_text (frags : List String) :
    pyStrip (collapseWs (getTextSep frags)) =
      String.mk (iwords (frags.flatMap fun s => wordsL s.data)) := by
  show String.mk (stripL (collapseA false
    (joinSp ((frags.map pyStrip).filter fun s => s != "")))) = _
  rw [strip_collapse_eq_iwords, wordsL_joinSp, flatMap_words_filter]

mutual

theorem nodeWords_eq : ∀ n : Node,
    ((textFragments n).flatMap fun s => wordsL s.data) = nodeWords n
  | .text s => by simp [textFragments, nodeWords]
  | .elem t i cls ts nn ch => by
    simp only [textFragments, nodeWords]
    exact forestWords_eq ch

theorem forestWords_eq : ∀ l : List Node,
    ((fragmentsList l).flatMap fun s => wordsL s.data) = forestWords l
  | [] => rfl
  | n :: ns => by
    simp only [fragmentsList, forestWords, List.flatMap_append]
    rw [nodeWords_eq n, forestWords_eq ns]

end

/-- `extract_content` without a selector produces exactly the words of the
cleaned tree joined by single spaces. -/
theorem extract_none_eq (doc : Document) :
    extract_content doc none =
      .ok (String.mk (iwords (forestWords (cleanList doc)))) := by
  show Except.ok (pyStrip (collapseWs (docText (cleanList doc)))) = _
  rw [docText, canonical_text, forestWords_eq]

/-- `extract_content` with a selector: resolve on the cleaned tree, then the
words of the selected scope joined by single spaces. -/
theorem extract_some_eq (doc : Document) (sel : Selector) :
    extract_content doc (some sel) =
      (match selectList sel (cleanList doc) with
      | none => Except.error (MonitorError.noMatch sel)
      | some e => Except.ok (String.mk (iwords (nodeWords e)))) := by
  show (match selectList sel (cleanList doc) with
      | none => Except.error (MonitorError.noMatch sel)
      | some e => Except.ok (pyStrip (collapseWs (nodeText e)))) = _
  cases selectList sel (cleanList doc) with
  | none => rfl
  | some e =>
    show Except.ok (pyStrip (collapseWs (nodeText e))) =
      Except.ok (String.mk (iwords (nodeWords e)))
    rw [nodeText, canonical_text, nodeWords_eq]

/-! ### Whitespace equivalence respects the pipeline -/

mutual

theorem wsEquiv_nodeWords : ∀ {n1 n2 : Node}, WsEquiv n1 n2 →
    nodeWords n1 = nodeWords n2
  | _, _, .text hw => by simpa [nodeWords] using hw
  | _, _, .elem hch => by
    simp only [nodeWords]
    exact wsForest_forestWords hch

theorem wsForest_forestWords : ∀ {l1 l2 : List Node}, WsForestEquiv l1 l2 →
    forestWords l1 = forestWords l2
  | _, _, .nil => rfl
  | _, _, .cons hn hf => by
    simp only [forestWords]
    rw [wsEquiv_nodeWords hn, wsForest_forestWords hf]
  | _, _, .skipLeft hw hf => by
    simp only [forestWords, nodeWords]
    rw [hw, wsForest_forestWords hf, List.nil_append]
  | _, _, .skipRight hw hf => by
    simp only [forestWords, nodeWords]
    rw [hw, wsForest_forestWords hf, List.nil_append]

end

mutual

theorem wsEquiv_selectNode (sel : Selector) : ∀ {n1 n2 : Node}, WsEquiv n1 n2 →
    OptNodeEquiv (selectNode sel n1) (selectNode sel n2)
  | _, _, .text _ => by
    simp only [selectNode]
    exact .none
  | _, _, @WsEquiv.elem t i cls ts nn ch1 ch2 hch => by
    simp only [selectNode]
    have heq : selMatches sel (Node.elem t i cls ts nn ch1) =
        selMatches sel (Node.elem t i cls ts nn ch2) := by cases sel <;> rfl
    cases hm : selMatches sel (Node.elem t i cls ts nn ch2) with
    | true =>
      rw [heq, hm]
      simp only [if_true]
      exact .some (.elem hch)
    | false =>
      rw [heq, hm]
      simp only [Bool.false_eq_true, if_false]
      exact wsForest_selectList sel hch

theorem wsForest_selectList (sel : Selector) : ∀ {l1 l2 : List Node},
    WsForestEquiv l1 l2 → OptNodeEquiv (selectList sel l1) (selectList sel l2)
  | _, _, .nil => .none
  | _, _, @WsForestEquiv.cons n1 n2 ns1 ns2 hn hf => by
    simp only [selectList]
    have hopt := wsEquiv_selectNode sel hn
    have hrec := wsForest_selectList sel hf
    revert hopt
    generalize selectNode sel n1 = o1
    generalize selectNode sel n2 = o2
    intro hopt
    cases hopt with
    | none => exact hrec
    | some hab => exact .some hab
  | _, _, .skipLeft hw hf => by
    simp only [selectList, selectNode]
    exact wsForest_selectList sel hf
  | _, _, .skipRight hw hf => by
    simp only [selectList, selectNode]
    exact wsForest_selectList sel hf

end

/-! ### C1: noise and whitespace invariance of `extract_content` -/

/-- C1: two documents with the same tree after the noise-removal passes, or
whose cleaned trees differ only in whitespace layout (equal element structure,
text with the same words, whitespace-only text nodes inserted or dropped),
normalize with the same selector to byte-identical canonical content; in
particular the two example documents both normalize to exactly `"Content"`. -/
theorem extract_content_noise_ws_invariant :
    (∀ (d1 d2 : Document) (sel : Option Selector), cleanList d1 = cleanList d2 →
      extract_content d1 sel = extract_content d2 sel) ∧
    (∀ (d1 d2 : Document) (sel : Option Selector),
      WsForestEquiv (cleanList d1) (cleanList d2) →
      extract_content d1 sel = extract_content d2 sel) ∧
    extract_content exDocScript none = .ok "Content" ∧
    extract_content exDocPlain none = .ok "Content" := by
  refine ⟨fun d1 d2 sel h => ?_, fun d1 d2 sel h => ?_, rfl, rfl⟩
  · simp only [extract_content, h]
  · cases sel with
    | none => rw [extract_none_eq, extract_none_eq, wsForest_forestWords h]
    | some sel =>
      rw [extract_some_eq, extract_some_eq]
      have hopt := wsForest_selectList sel h
      revert hopt
      generalize selectList sel (cleanList d1) = o1
      generalize selectList sel (cleanList d2) = o2
      intro hopt
      cases hopt with
      | none => rfl
      | @some a b hab =>
        show Except.ok (String.mk (iwords (nodeWords a))) =
          Except.ok (String.mk (iwords (nodeWords b)))
        rw [wsEquiv_nodeWords hab]

theorem extract_content_noise_ws_invariant_witness :
    extract_content exDocScript none = extract_content exDocPlain none ∧
    extract_content [Node.text "x"] none = extract_content [Node.text " x "] none :=
  ⟨extract_content_noise_ws_invariant.1 exDocScript exDocPlain none rfl,
   extract_content_noise_ws_invariant.2.1 [Node.text "x"] [Node.text " x "] none
    (by
      show WsForestEquiv [Node.text "x"] [Node.text " x "]
      refine WsForestEquiv.cons (WsEquiv.text ?_) WsForestEquiv.nil
      show wordsL ['x'] = wordsL [' ', 'x', ' ']
      rw [wordsL_cons_word (by decide), wordsL_cons_space (by decide),
        wordsL_cons_word (by decide)]
      simp only [List.takeWhile_nil, List.dropWhile_nil]
      rw [show List.takeWhile (fun x => !isSpc x) [' '] = [] from rfl,
        show List.dropWhile (fun x => !isSpc x) [' '] = [' '] from rfl,
        wordsL_cons_space (by decide), wordsL_nil])⟩

/-! ### C8: selector resolution -/

mutual

theorem selectNode_find (sel : Selector) : ∀ n : Node,
    selectNode sel n = (elemsOf n).find? (selMatches sel)
  | .text s => by simp [selectNode, elemsOf]
  | .elem t i cls ts nn ch => by
    simp only [selectNode, elemsOf]
    cases hm : selMatches sel (Node.elem t i cls ts nn ch) with
    | true =>
      rw [if_pos (by simp [hm])]
      simp [List.find?_cons, hm]
    | false =>
      rw [if_neg (by simp [hm])]
      simp only [List.find?_cons, hm, cond_false]
      exact selectList_find sel ch

theorem selectList_find (sel : Selector) : ∀ l : List Node,
    selectList sel l = (elemsList l).find? (selMatches sel)
  | [] => rfl
  | n :: ns => by
    simp only [selectList, elemsList]
    rw [List.find?_append, ← selectNode_find sel n, ← selectList_find sel ns]
    cases selectNode sel n <;> rfl

end

/-- C8: with a selector, `extract_content` resolves it against the tree left
by the noise-removal passes; if no element matches, it fails with the
no-match `MonitorError` (the only selector-induced failure), and otherwise
the first matching element in document order becomes the extraction scope. -/
theorem extract_content_selector_semantics (d : Document) (sel : Selector) :
    extract_content d (some sel) =
      (match (elemsList (cleanList d)).find? (selMatches sel) with
      | none => Except.error (MonitorError.noMatch sel)
      | some e => Except.ok (pyStrip (collapseWs (nodeText e)))) := by
  show (match selectList sel (cleanList d) with
      | none => Except.error (MonitorError.noMatch sel)
      | some e => Except.ok (pyStrip (collapseWs (nodeText e)))) = _
  rw [selectList_find]

/-! ### C10: class matching is case-insensitive substring search -/

mutual

theorem cleanNode_noise_free : ∀ (n m : Node), cleanNode n = some m →
    ∀ x ∈ elemsOf m, nodeIsNoise x = false
  | .text s, m, h => by
    simp only [cleanNode, Option.some.injEq] at h
    subst h
    simp [elemsOf]
  | .elem t i cls ts nn ch, m, h => by
    simp only [cleanNode] at h
    cases hn : isNoiseElem t cls ts nn with
    | true => simp [hn] at h
    | false =>
      rw [if_neg (by simp [hn])] at h
      rw [Option.some.injEq] at h
      subst h
      intro x hx
      simp only [elemsOf] at hx
      rcases List.mem_cons.1 hx with rfl | hx'
      · simp [nodeIsNoise, hn]
      · exact cleanList_noise_free ch x hx'

theorem cleanList_noise_free : ∀ l : List Node,
    ∀ x ∈ elemsList (cleanList l), nodeIsNoise x = false
  | [], x, hx => by simp [cleanList, elemsList] at hx
  | n :: ns, x, hx => by
    simp only [cleanList] at hx
    cases hcn : cleanNode n with
    | none =>
      rw [hcn] at hx
      exact cleanList_noise_free ns x hx
    | some m =>
      rw [hcn] at hx
      simp only [elemsList] at hx
      rcases List.mem_append.1 hx with h1 | h2
      · exact cleanNode_noise_free n m hcn x h1
      · exact cleanList_noise_free ns x h2

end

/-- C10: the tracking/ads removal pass matches each class token by
case-insensitive substring search, not whole-word equality: `"header"`,
`"shadow"` and `"download"` all match (they contain `"ad"`), every element
with a matching class is removed by `extract_content` (no surviving element
of the cleaned tree has a matching class), and the text of such an element is
absent from the canonical content, as the concrete document shows. -/
theorem class_noise_substring :
    (∀ d : Document,
      ((elemsList (cleanList d)).all fun n => !nodeClassNoise n) = true) ∧
    isNoiseClass ["header"] = true ∧
    isNoiseClass ["shadow"] = true ∧
    isNoiseClass ["download"] = true ∧
    extract_content
      [Node.elem "div" none ["header"] false false [Node.text "Secret"],
       Node.elem "p" none [] false false [Node.text "Keep"]] none = .ok "Keep" := by
  refine ⟨fun d => ?_, by decide, by decide, by decide, rfl⟩
  rw [List.all_eq_true]
  intro x hx
  have h := cleanList_noise_free d x hx
  cases x with
  | text s => simp [nodeClassNoise]
  | elem t i cls ts nn ch =>
    simp only [nodeIsNoise, isNoiseElem] at h
    simp only [nodeClassNoise]
    rw [Bool.or_eq_false_iff, Bool.or_eq_false_iff, Bool.or_eq_false_iff] at h
    simp [h.1.1.2]

end DevMonitor
